import Mathlib

/-!
Verification of the per-key leaky-bucket rate limiter (`src/rateLimiter.ts`).

The source is pure TypeScript over JS numbers and an immutable-update `Map`.
We embed it shallowly:
* JS numbers at validation boundaries are modelled by `JSNum`
  (a finite rational, `NaN`, `+∞` or `-∞`), with JS comparison semantics;
  the arithmetic of the bucket dynamics, which the source only ever runs on
  finite values, is modelled over `ℚ`.
* the `Map<string, UserBucket>` is modelled as an association list with the
  `Map.get` / `Map.set` semantics (`lookupBucket` / `setBucket`); JS maps have
  pairwise-distinct keys, captured by the `KeysNodup` predicate where needed.
* a JS `throw` is modelled by `Except.error`: no new state is produced.
-/

/-- A JS `number` as far as the source's validation code distinguishes them:
a finite value (modelled as a rational), `NaN`, `+Infinity` or `-Infinity`. -/
inductive JSNum where
  | fin (q : ℚ)
  | nan
  | posInf
  | negInf
deriving DecidableEq, Repr

/-- JS `isFinite`. -/
def JSNum.isFinite : JSNum → Bool
  | .fin _ => true
  | _ => false

/-- JS `<=` comparison: any comparison with `NaN` is `false`;
`-Infinity` is below everything else, `+Infinity` above. -/
def JSNum.jsLe : JSNum → JSNum → Bool
  | .nan, _ => false
  | _, .nan => false
  | .fin a, .fin b => decide (a ≤ b)
  | .negInf, _ => true
  | _, .posInf => true
  | .posInf, _ => false
  | .fin _, .negInf => false

/-- The characters JS `String.prototype.trim` removes, restricted to the ASCII
whitespace characters (space, tab, line feed, carriage return, vertical tab,
form feed); the source only uses `trim` to test for effectively-empty keys. -/
def isJsWhitespace (c : Char) : Bool :=
  c = ' ' || c = '\t' || c = '\n' || c = '\r' || c.toNat = 11 || c.toNat = 12

/-- JS `String.prototype.trim`: strip leading and trailing whitespace. -/
def jsTrim (s : String) : String :=
  String.mk (((s.toList.dropWhile isJsWhitespace).reverse.dropWhile isJsWhitespace).reverse)

/-- `UserBucket` from `types.ts`: per-key fill level and last-update time. -/
structure UserBucket where
  currentLevel : ℚ
  lastUpdateTime : ℚ
deriving DecidableEq, Repr

/-- `RateLimiter` from `types.ts`, with the bucket `Map` as an association
list (first match wins on lookup, as for a JS `Map` whose keys are unique). -/
structure RateLimiter where
  capacity : ℚ
  leakRate : ℚ
  buckets : List (String × UserBucket)
deriving DecidableEq, Repr

/-- `BucketState` from `types.ts`: the snapshot returned by `getBucketState`. -/
structure BucketState where
  userId : String
  currentLevel : ℚ
  capacity : ℚ
  lastUpdateTime : ℚ
  leakRate : ℚ
deriving DecidableEq, Repr

/-- `Map.get`: the value stored at `k`, if any. -/
def lookupBucket : List (String × UserBucket) → String → Option UserBucket
  | [], _ => none
  | (k', b) :: rest, k => if k' = k then some b else lookupBucket rest k

/-- `Map.set`: replace the entry at `k` if present, else append it. -/
def setBucket : List (String × UserBucket) → String → UserBucket → List (String × UserBucket)
  | [], k, b => [(k, b)]
  | (k', b') :: rest, k, b =>
    if k' = k then (k, b) :: rest else (k', b') :: setBucket rest k b

/-- The keys of the bucket map are pairwise distinct — always true of the
image of a JS `Map`. -/
def KeysNodup (bs : List (String × UserBucket)) : Prop :=
  (bs.map Prod.fst).Nodup

/-- `createRateLimiter` from `rateLimiter.ts`, kept at the JS-number level
because its guards are JS `<=` comparisons (`capacity <= 0`, `leakRate <= 0`);
the success value records the arguments verbatim, as the source does. -/
structure RateLimiterJS where
  capacity : JSNum
  leakRate : JSNum
  buckets : List (String × UserBucket)
deriving DecidableEq, Repr

def createRateLimiter (capacity leakRate : JSNum) : Except String RateLimiterJS :=
  if capacity.jsLe (.fin 0) then
    .error "Capacity must be positive"
  else if leakRate.jsLe (.fin 0) then
    .error "Leak rate must be positive"
  else
    .ok ⟨capacity, leakRate, []⟩

/-- `calculateLeakedLevel` from `rateLimiter.ts`:
`max(0, level - max(0, currentTime - lastUpdateTime) * leakRate)`. -/
def calculateLeakedLevel (bucket : UserBucket) (currentTime leakRate : ℚ) : ℚ :=
  max 0 (bucket.currentLevel - max 0 (currentTime - bucket.lastUpdateTime) * leakRate)

/-- `updateBucket` from `rateLimiter.ts`: reconcile the level by drainage and
advance the clock monotonically. -/
def updateBucket (bucket : UserBucket) (currentTime leakRate : ℚ) : UserBucket :=
  ⟨calculateLeakedLevel bucket currentTime leakRate,
   max bucket.lastUpdateTime currentTime⟩

/-- `allowRequest` from `rateLimiter.ts`. A JS `throw` is an `Except.error`;
the timestamp argument stays a `JSNum` because the source validates it with
`isFinite` before any arithmetic. -/
def allowRequest (limiter : RateLimiter) (userId : String) (timestamp : JSNum) :
    Except String (Bool × RateLimiter) :=
  if userId = "" || jsTrim userId = "" then
    .error "User ID must be a non-empty string"
  else
    match timestamp with
    | .fin ts =>
      let currentBucket : UserBucket :=
        match lookupBucket limiter.buckets userId with
        | none => ⟨0, ts⟩
        | some existingBucket => updateBucket existingBucket ts limiter.leakRate
      let newLevelAfterRequest := currentBucket.currentLevel + 1
      if newLevelAfterRequest > limiter.capacity then
        .ok (false, { limiter with buckets := setBucket limiter.buckets userId currentBucket })
      else
        .ok (true, { limiter with
          buckets := setBucket limiter.buckets userId
            ⟨newLevelAfterRequest, currentBucket.lastUpdateTime⟩ })
    | _ => .error "Timestamp must be a finite number"

/-- The per-entry body of `cleanupInactiveBuckets`'s `forEach`: recompute the
level as of `currentTime`, keep the entry if recently touched or still
holding water, and advance its clock to `max(lastUpdateTime, currentTime)`. -/
def cleanupEntry (leakRate currentTime maxIdleTime : ℚ) (e : String × UserBucket) :
    Option (String × UserBucket) :=
  let currentLevel := calculateLeakedLevel e.2 currentTime leakRate
  if e.2.lastUpdateTime ≥ currentTime - maxIdleTime ∨ currentLevel > 0 then
    some (e.1, ⟨currentLevel, max e.2.lastUpdateTime currentTime⟩)
  else
    none

/-- `cleanupInactiveBuckets` from `rateLimiter.ts` (the `maxIdleTime = 3600`
default is supplied by callers here). -/
def cleanupInactiveBuckets (limiter : RateLimiter) (currentTime maxIdleTime : ℚ) :
    RateLimiter :=
  { limiter with
    buckets := limiter.buckets.filterMap (cleanupEntry limiter.leakRate currentTime maxIdleTime) }

/-- `getBucketState` from `rateLimiter.ts`; the optional `currentTime`
parameter is an `Option`, `none` standing for `undefined`. -/
def getBucketState (limiter : RateLimiter) (userId : String) (currentTime : Option ℚ) :
    Option BucketState :=
  if userId = "" || jsTrim userId = "" then
    none
  else
    match lookupBucket limiter.buckets userId with
    | none => none
    | some bucket =>
      let actualCurrentLevel :=
        match currentTime with
        | some t => calculateLeakedLevel bucket t limiter.leakRate
        | none => bucket.currentLevel
      some ⟨userId, actualCurrentLevel, limiter.capacity, bucket.lastUpdateTime, limiter.leakRate⟩

/-- One externally observable operation on a limiter value. -/
inductive Op where
  | req (userId : String) (timestamp : JSNum)
  | cleanup (currentTime maxIdleTime : ℚ)
deriving DecidableEq, Repr

/-- Apply one operation; a rejected-by-validation `req` throws in the source
and therefore leaves the state untouched. -/
def applyOp (l : RateLimiter) : Op → RateLimiter
  | .req k t =>
    match allowRequest l k t with
    | .ok (_, l') => l'
    | .error _ => l
  | .cleanup c m => cleanupInactiveBuckets l c m

/-- Apply a sequence of operations, oldest first. -/
def applyOps (l : RateLimiter) (ops : List Op) : RateLimiter :=
  ops.foldl applyOp l

/-- The limiter states reachable from a successful `createRateLimiter` call
with finite arguments by any sequence of operations. -/
inductive Reachable : RateLimiter → Prop where
  | created (c r : ℚ) : 0 < c → 0 < r → Reachable ⟨c, r, []⟩
  | step (l : RateLimiter) (op : Op) : Reachable l → Reachable (applyOp l op)

/-- The level-bounds invariant of C4: positive configuration and every
stored level within `[0, capacity]`. -/
def BucketInv (l : RateLimiter) : Prop :=
  0 < l.capacity ∧ 0 < l.leakRate ∧
    ∀ e ∈ l.buckets, 0 ≤ e.2.currentLevel ∧ e.2.currentLevel ≤ l.capacity

/-- The effective prior bucket named by the claims: the stored bucket, or a
fresh `{level 0, lastUpdate = timestamp}` when the key is absent. Stated from
the spec text, to be compared with what `allowRequest` computes. -/
def specPrior (l : RateLimiter) (key : String) (ts : ℚ) : UserBucket :=
  (lookupBucket l.buckets key).getD ⟨0, ts⟩

/-- The reconciled level named by the claims:
`max(0, level - max(0, timestamp - lastUpdate) * leakRate)` over the
effective prior bucket. Stated from the spec text. -/
def specReconciledLevel (l : RateLimiter) (key : String) (ts : ℚ) : ℚ :=
  max 0 ((specPrior l key ts).currentLevel -
    max 0 (ts - (specPrior l key ts).lastUpdateTime) * l.leakRate)

/-- The reconciled clock named by the claims: `max(lastUpdate, timestamp)`
over the effective prior bucket. Stated from the spec text. -/
def specReconciledTime (l : RateLimiter) (key : String) (ts : ℚ) : ℚ :=
  max (specPrior l key ts).lastUpdateTime ts

/-- A JS number that the guard `x <= 0` catches: `-Infinity` or a
non-positive finite value. `NaN` and `+Infinity` are NOT caught, because a
JS comparison with `NaN` is always false and `Infinity <= 0` is false. -/
def JSNum.nonPosJS (n : JSNum) : Prop :=
  n = .negInf ∨ ∃ q, n = .fin q ∧ q ≤ 0

example : jsTrim "  ab " = "ab" := by decide
example : jsTrim "   " = "" := by decide
theorem uKeyValid : ("u" = "" || jsTrim "u" = "") = false := by decide

@[simp] theorem lookupBucket_nil (k : String) : lookupBucket [] k = none := rfl

@[simp] theorem lookupBucket_cons (k₀ : String) (b₀ : UserBucket)
    (rest : List (String × UserBucket)) (k : String) :
    lookupBucket ((k₀, b₀) :: rest) k = if k₀ = k then some b₀ else lookupBucket rest k := rfl

@[simp] theorem setBucket_nil (k : String) (b : UserBucket) : setBucket [] k b = [(k, b)] := rfl

@[simp] theorem setBucket_cons (k₀ : String) (b₀ : UserBucket)
    (rest : List (String × UserBucket)) (k : String) (b : UserBucket) :
    setBucket ((k₀, b₀) :: rest) k b =
      if k₀ = k then (k, b) :: rest else (k₀, b₀) :: setBucket rest k b := rfl

theorem lookupBucket_setBucket_self (bs : List (String × UserBucket)) (k : String)
    (b : UserBucket) : lookupBucket (setBucket bs k b) k = some b := by
  induction bs with
  | nil => simp
  | cons e rest ih =>
    obtain ⟨k₀, b₀⟩ := e
    by_cases h : k₀ = k <;> simp [h, ih]

theorem lookupBucket_setBucket_ne (bs : List (String × UserBucket)) (k k' : String)
    (b : UserBucket) (h : k' ≠ k) :
    lookupBucket (setBucket bs k b) k' = lookupBucket bs k' := by
  induction bs with
  | nil =>
    rw [setBucket_nil, lookupBucket_cons, if_neg (fun hh => h hh.symm), lookupBucket_nil]
  | cons e rest ih =>
    obtain ⟨k₀, b₀⟩ := e
    by_cases hk : k₀ = k
    · subst hk
      rw [setBucket_cons, if_pos rfl, lookupBucket_cons, lookupBucket_cons,
        if_neg (fun hh => h hh.symm), if_neg (fun hh => h hh.symm)]
    · simp [hk, ih]

theorem mem_setBucket {bs : List (String × UserBucket)} {k : String} {b : UserBucket}
    {e : String × UserBucket} (h : e ∈ setBucket bs k b) : e = (k, b) ∨ e ∈ bs := by
  induction bs with
  | nil => exact Or.inl (by simpa using h)
  | cons e₀ rest ih =>
    obtain ⟨k₀, b₀⟩ := e₀
    by_cases hk : k₀ = k
    · rcases (by simpa [hk] using h : e = (k, b) ∨ e ∈ rest) with h1 | h1
      · exact Or.inl h1
      · exact Or.inr (List.mem_cons_of_mem _ h1)
    · rcases (by simpa [hk] using h : e = (k₀, b₀) ∨ e ∈ setBucket rest k b) with h1 | h1
      · exact Or.inr (by simp [h1])
      · rcases ih h1 with h2 | h2
        · exact Or.inl h2
        · exact Or.inr (List.mem_cons_of_mem _ h2)

theorem keys_setBucket_nodup {bs : List (String × UserBucket)} (k : String) (b : UserBucket)
    (h : KeysNodup bs) : KeysNodup (setBucket bs k b) := by
  induction bs with
  | nil => simp [KeysNodup]
  | cons e rest ih =>
    obtain ⟨k₀, b₀⟩ := e
    rw [KeysNodup, List.map_cons, List.nodup_cons] at h
    by_cases hk : k₀ = k
    · subst hk
      rw [KeysNodup, setBucket_cons, if_pos rfl, List.map_cons, List.nodup_cons]
      exact h
    · have hrest := ih h.2
      rw [KeysNodup, setBucket_cons, if_neg hk, List.map_cons, List.nodup_cons]
      refine ⟨fun hmem => ?_, hrest⟩
      rcases List.mem_map.1 hmem with ⟨e, he, hke⟩
      rcases mem_setBucket he with h1 | h1
      · exact hk (by rw [h1] at hke; exact hke.symm)
      · exact h.1 (List.mem_map.2 ⟨e, h1, hke⟩)

theorem lookupBucket_eq_some_mem {bs : List (String × UserBucket)} {k : String}
    {b : UserBucket} (h : lookupBucket bs k = some b) : (k, b) ∈ bs := by
  induction bs with
  | nil => simp at h
  | cons e rest ih =>
    obtain ⟨k₀, b₀⟩ := e
    by_cases hk : k₀ = k
    · subst hk
      rw [lookupBucket_cons, if_pos rfl, Option.some.injEq] at h
      simp [h]
    · rw [lookupBucket_cons, if_neg hk] at h
      exact List.mem_cons_of_mem _ (ih h)

theorem lookupBucket_eq_none_of_not_mem {bs : List (String × UserBucket)} {k : String}
    (h : k ∉ bs.map Prod.fst) : lookupBucket bs k = none := by
  induction bs with
  | nil => simp
  | cons e rest ih =>
    obtain ⟨k₀, b₀⟩ := e
    simp only [List.map_cons, List.mem_cons] at h
    push_neg at h
    rw [lookupBucket_cons, if_neg (fun hh => h.1 hh.symm)]
    exact ih h.2

theorem cleanupEntry_key {r c m : ℚ} {e e' : String × UserBucket}
    (h : cleanupEntry r c m e = some e') : e' = (e.1, e'.2) := by
  simp only [cleanupEntry] at h
  split at h
  · cases h
    rfl
  · cases h

theorem cleanupEntry_val {r c m : ℚ} {e₀ e : String × UserBucket}
    (h : cleanupEntry r c m e₀ = some e) :
    e = (e₀.1, ⟨calculateLeakedLevel e₀.2 c r, max e₀.2.lastUpdateTime c⟩) := by
  simp only [cleanupEntry] at h
  split at h
  · cases h
    rfl
  · cases h

theorem cleanup_keys_sublist (r c m : ℚ) (bs : List (String × UserBucket)) :
    ((bs.filterMap (cleanupEntry r c m)).map Prod.fst).Sublist (bs.map Prod.fst) := by
  induction bs with
  | nil => simp
  | cons e rest ih =>
    obtain ⟨k₀, b₀⟩ := e
    rw [List.filterMap_cons]
    rcases h : cleanupEntry r c m (k₀, b₀) with _ | e'
    · rw [List.map_cons]
      exact ih.cons _
    · have hk : e'.1 = k₀ := congrArg Prod.fst (cleanupEntry_key h) ▸ rfl
      rw [List.map_cons, List.map_cons, hk]
      exact ih.cons₂ _

theorem keys_cleanup_nodup {bs : List (String × UserBucket)} (r c m : ℚ)
    (h : KeysNodup bs) : KeysNodup (bs.filterMap (cleanupEntry r c m)) :=
  h.sublist (cleanup_keys_sublist r c m bs)

theorem lookupBucket_cleanup {bs : List (String × UserBucket)} (r c m : ℚ) (k : String)
    (h : KeysNodup bs) :
    lookupBucket (bs.filterMap (cleanupEntry r c m)) k =
      (lookupBucket bs k).bind (fun b => (cleanupEntry r c m (k, b)).map Prod.snd) := by
  induction bs with
  | nil => simp
  | cons e rest ih =>
    obtain ⟨k₀, b₀⟩ := e
    rw [KeysNodup, List.map_cons, List.nodup_cons] at h
    have ihr := ih h.2
    by_cases hk : k₀ = k
    · subst hk
      have hnone' : lookupBucket (rest.filterMap (cleanupEntry r c m)) k₀ = none :=
        lookupBucket_eq_none_of_not_mem (fun hmem =>
          h.1 ((cleanup_keys_sublist r c m rest).mem hmem))
      rw [List.filterMap_cons]
      rcases hce : cleanupEntry r c m (k₀, b₀) with _ | e'
      · rw [hnone', lookupBucket_cons, if_pos rfl]
        simp [hce]
      · obtain ⟨ek, eb⟩ := e'
        have h1 : ek = k₀ := congrArg Prod.fst (cleanupEntry_key hce)
        subst h1
        rw [lookupBucket_cons, if_pos rfl, lookupBucket_cons, if_pos rfl]
        simp [hce]
    · rw [List.filterMap_cons]
      rcases hce : cleanupEntry r c m (k₀, b₀) with _ | e'
      · rw [ihr, lookupBucket_cons, if_neg hk]
      · obtain ⟨ek, eb⟩ := e'
        have h1 : ek = k₀ := congrArg Prod.fst (cleanupEntry_key hce)
        subst h1
        rw [lookupBucket_cons, if_neg hk, ihr, lookupBucket_cons, if_neg hk]

theorem leaked_compose {L t r c q : ℚ} (hr : 0 ≤ r) (hcq : c ≤ q) :
    max 0 (max 0 (L - max 0 (c - t) * r) - max 0 (q - max t c) * r) =
      max 0 (L - max 0 (q - t) * r) := by
  rcases le_total t c with htc | htc
  · have h1 : max 0 (c - t) = c - t := max_eq_right (by linarith)
    have h2 : max t c = c := max_eq_right htc
    have h3 : max 0 (q - c) = q - c := max_eq_right (by linarith)
    have h4 : max 0 (q - t) = q - t := max_eq_right (by linarith)
    rw [h1, h2, h3, h4]
    rcases le_total (L - (c - t) * r) 0 with hL | hL
    · have h5 : max 0 (L - (c - t) * r) = 0 := max_eq_left hL
      have h6 : (0:ℚ) - (q - c) * r ≤ 0 := by nlinarith
      have h7 : L - (q - t) * r ≤ 0 := by nlinarith
      rw [h5, max_eq_left h6, max_eq_left h7]
    · have h5 : max 0 (L - (c - t) * r) = L - (c - t) * r := max_eq_right hL
      rw [h5]
      ring_nf
    -- the two sides agree literally after ring normalisation in this branch
  · have h1 : max 0 (c - t) = 0 := max_eq_left (by linarith)
    have h2 : max t c = t := max_eq_left htc
    rw [h1, h2, zero_mul, sub_zero]
    rcases le_total (L : ℚ) 0 with hL | hL
    · have h5 : max 0 L = 0 := max_eq_left hL
      have h6 : (0:ℚ) - max 0 (q - t) * r ≤ 0 := by
        have : 0 ≤ max 0 (q - t) * r := mul_nonneg (le_max_left _ _) hr
        linarith
      have h7 : L - max 0 (q - t) * r ≤ 0 := by
        have : 0 ≤ max 0 (q - t) * r := mul_nonneg (le_max_left _ _) hr
        linarith
      rw [h5, max_eq_left h6, max_eq_left h7]
    · rw [max_eq_right hL]

theorem allowRequest_eval_fresh :
    allowRequest ⟨5, 1, []⟩ "u" (.fin 0) = .ok (true, ⟨5, 1, [("u", ⟨1, 0⟩)]⟩) := by
  simp only [allowRequest, uKeyValid, lookupBucket, setBucket, updateBucket,
    calculateLeakedLevel, Bool.false_eq_true, if_false]
  norm_num
example : (allowRequest ⟨5, 1, [("u", ⟨5, 0⟩)]⟩ "u" (.fin 0)).toOption.map Prod.fst =
    some false := by
  simp only [allowRequest, uKeyValid, lookupBucket, setBucket, updateBucket,
    calculateLeakedLevel, Bool.false_eq_true, if_false, if_true]
  norm_num [Except.toOption]
example : createRateLimiter .nan (.fin 1) = .ok ⟨.nan, .fin 1, []⟩ := by
  simp only [createRateLimiter, JSNum.jsLe]
  norm_num
example : cleanupInactiveBuckets ⟨5, 1, [("u", ⟨1, 0⟩)]⟩ 4000 3600 = ⟨5, 1, []⟩ := by
  simp only [cleanupInactiveBuckets, List.filterMap, cleanupEntry, calculateLeakedLevel]
  norm_num
example : cleanupInactiveBuckets ⟨5, 1, [("u", ⟨5, 0⟩)]⟩ 3 3600 =
    ⟨5, 1, [("u", ⟨2, 3⟩)]⟩ := by
  simp only [cleanupInactiveBuckets, List.filterMap, cleanupEntry, calculateLeakedLevel]
  norm_num

theorem code_bucket_eq (l : RateLimiter) (key : String) (ts : ℚ) :
    (match lookupBucket l.buckets key with
      | none => (⟨0, ts⟩ : UserBucket)
      | some b => updateBucket b ts l.leakRate) =
      ⟨specReconciledLevel l key ts, specReconciledTime l key ts⟩ := by
  rcases hlook : lookupBucket l.buckets key with _ | b
  · simp [specReconciledLevel, specReconciledTime, specPrior, hlook]
  · simp [specReconciledLevel, specReconciledTime, specPrior, hlook,
      updateBucket, calculateLeakedLevel]

/-- C1: for every limiter, non-empty-after-trimming key and finite timestamp,
`allowRequest` succeeds; the effective prior bucket is the stored one, or
`{level 0, lastUpdate = timestamp}` if absent; the reconciled level is
`max 0 (level - max 0 (timestamp - lastUpdate) * leakRate)` and the
reconciled clock is `max lastUpdate timestamp`; the request is admitted iff
`reconciledLevel + 1 ≤ capacity`; on admission the stored bucket becomes
`{reconciledLevel + 1, reconciledLastUpdate}`, on rejection
`{reconciledLevel, reconciledLastUpdate}` — the reconciliation is persisted,
the `+1` is not. -/
theorem checkAndConsume_spec (l : RateLimiter) (key : String) (ts : ℚ)
    (hkey : jsTrim key ≠ "") :
    ∃ admitted l', allowRequest l key (.fin ts) = .ok (admitted, l') ∧
      (admitted = true ↔ specReconciledLevel l key ts + 1 ≤ l.capacity) ∧
      l' = ⟨l.capacity, l.leakRate, setBucket l.buckets key
        (if admitted then ⟨specReconciledLevel l key ts + 1, specReconciledTime l key ts⟩
         else ⟨specReconciledLevel l key ts, specReconciledTime l key ts⟩)⟩ := by
  have hk0 : key ≠ "" := fun h => hkey (by rw [h]; rfl)
  have hcond : (key = "" || jsTrim key = "") = false := by
    simp [hk0, hkey]
  have hcb := code_bucket_eq l key ts
  by_cases hadm : specReconciledLevel l key ts + 1 > l.capacity
  · refine ⟨false, ⟨l.capacity, l.leakRate, setBucket l.buckets key
      ⟨specReconciledLevel l key ts, specReconciledTime l key ts⟩⟩, ?_, ?_, ?_⟩
    · simp only [allowRequest, hcond, Bool.false_eq_true, if_false, hcb]
      rw [if_pos hadm]
    · simp only [Bool.false_eq_true, false_iff, not_le]
      exact hadm
    · simp only [Bool.false_eq_true, if_false]
  · refine ⟨true, ⟨l.capacity, l.leakRate, setBucket l.buckets key
      ⟨specReconciledLevel l key ts + 1, specReconciledTime l key ts⟩⟩, ?_, ?_, ?_⟩
    · simp only [allowRequest, hcond, Bool.false_eq_true, if_false, hcb]
      rw [if_neg hadm]
    · simp only [true_iff]
      exact not_lt.1 hadm
    · simp only [if_true]

/-- Witness for C1 at a concrete input: capacity 5, leak rate 1, fresh key. -/
theorem checkAndConsume_spec_witness :
    ∃ admitted l', allowRequest ⟨5, 1, []⟩ "u" (.fin 0) = .ok (admitted, l') ∧
      (admitted = true ↔ specReconciledLevel ⟨5, 1, []⟩ "u" 0 + 1 ≤ (5 : ℚ)) ∧
      l' = ⟨5, 1, setBucket [] "u"
        (if admitted then
          ⟨specReconciledLevel ⟨5, 1, []⟩ "u" 0 + 1, specReconciledTime ⟨5, 1, []⟩ "u" 0⟩
         else
          ⟨specReconciledLevel ⟨5, 1, []⟩ "u" 0, specReconciledTime ⟨5, 1, []⟩ "u" 0⟩)⟩ :=
  checkAndConsume_spec ⟨5, 1, []⟩ "u" 0 (by decide)

theorem jsLe_fin_zero (n : JSNum) : n.jsLe (.fin 0) = true ↔ n.nonPosJS := by
  cases n <;> simp [JSNum.jsLe, JSNum.nonPosJS]

/-- C3 counterexample: the claim says `create` fails for NaN and `+Infinity`
capacities, but the source's guard is `capacity <= 0`, which is false for
both, so they are accepted and stored verbatim. -/
theorem create_accepts_nonfinite :
    createRateLimiter JSNum.nan (JSNum.fin 1) = .ok ⟨JSNum.nan, JSNum.fin 1, []⟩ ∧
    createRateLimiter JSNum.posInf (JSNum.fin 1) = .ok ⟨JSNum.posInf, JSNum.fin 1, []⟩ := by
  constructor <;> simp [createRateLimiter, JSNum.jsLe]

/-- C3 amended: `createRateLimiter` fails with `InvalidConfiguration` iff
`capacity <= 0` or `leakRate <= 0` holds under JS comparison — i.e. for
`-Infinity` or a non-positive finite argument, but NOT for `NaN` or
`+Infinity`, which are accepted; on success it returns a limiter holding the
given capacity and leak rate and an empty key-to-bucket mapping. -/
theorem create_spec (c r : JSNum) :
    ((∃ e, createRateLimiter c r = .error e) ↔ (c.nonPosJS ∨ r.nonPosJS)) ∧
    (¬(c.nonPosJS ∨ r.nonPosJS) → createRateLimiter c r = .ok ⟨c, r, []⟩) := by
  constructor
  · constructor
    · rintro ⟨e, he⟩
      by_contra hcon
      push_neg at hcon
      have hc : c.jsLe (.fin 0) = false := by
        rw [← Bool.not_eq_true, jsLe_fin_zero]
        exact hcon.1
      have hr : r.jsLe (.fin 0) = false := by
        rw [← Bool.not_eq_true, jsLe_fin_zero]
        exact hcon.2
      simp [createRateLimiter, hc, hr] at he
    · intro h
      rcases h with h | h
      · exact ⟨"Capacity must be positive", by
          simp [createRateLimiter, (jsLe_fin_zero c).2 h]⟩
      · by_cases hc : c.jsLe (.fin 0) = true
        · exact ⟨"Capacity must be positive", by simp [createRateLimiter, hc]⟩
        · have hc' : c.jsLe (.fin 0) = false := by
            rw [← Bool.not_eq_true]
            exact hc
          exact ⟨"Leak rate must be positive", by
            simp [createRateLimiter, hc', (jsLe_fin_zero r).2 h]⟩
  · intro hcon
    push_neg at hcon
    have hc : c.jsLe (.fin 0) = false := by
      rw [← Bool.not_eq_true, jsLe_fin_zero]
      exact hcon.1
    have hr : r.jsLe (.fin 0) = false := by
      rw [← Bool.not_eq_true, jsLe_fin_zero]
      exact hcon.2
    simp [createRateLimiter, hc, hr]

/-- Witness for C3 (amended) at concrete inputs: capacity 5 and leak rate 1
are accepted and produce the limiter verbatim. -/
theorem create_spec_witness :
    createRateLimiter (.fin 5) (.fin 1) = .ok ⟨.fin 5, .fin 1, []⟩ :=
  (create_spec (.fin 5) (.fin 1)).2 (by
    rintro (h | h) <;> rcases h with h | ⟨q, hq, hle⟩ <;>
      first
        | cases h
        | (cases hq; norm_num at hle))

/-- C8: `allowRequest` fails exactly on an empty / whitespace-only key or a
non-finite timestamp. In the embedding an error carries no new limiter, so a
failing call leaves the caller's state untouched, as the thrown JS exception
does (the source throws before constructing any new `Map`). -/
theorem checkAndConsume_error_iff (l : RateLimiter) (key : String) (t : JSNum) :
    (∃ e, allowRequest l key t = .error e) ↔
      (jsTrim key = "" ∨ t.isFinite = false) := by
  by_cases hkey : (key = "" || jsTrim key = "") = true
  · constructor
    · intro _
      rcases Bool.or_eq_true_iff.1 hkey with h | h
      · exact Or.inl (by rw [decide_eq_true_iff.1 h]; rfl)
      · exact Or.inl (decide_eq_true_iff.1 h)
    · intro _
      exact ⟨"User ID must be a non-empty string", by simp only [allowRequest, hkey, if_true]⟩
  · have hkey' : jsTrim key ≠ "" := by
      intro h
      exact hkey (by simp [h])
    rw [Bool.not_eq_true] at hkey
    cases t with
    | fin q =>
      constructor
      · rintro ⟨e, he⟩
        simp only [allowRequest, hkey, Bool.false_eq_true, if_false] at he
        split at he <;> cases he
      · rintro (h | h)
        · exact absurd h hkey'
        · cases h
    | nan =>
      exact ⟨fun _ => Or.inr rfl, fun _ => ⟨"Timestamp must be a finite number",
        by simp only [allowRequest, hkey, Bool.false_eq_true, if_false]⟩⟩
    | posInf =>
      exact ⟨fun _ => Or.inr rfl, fun _ => ⟨"Timestamp must be a finite number",
        by simp only [allowRequest, hkey, Bool.false_eq_true, if_false]⟩⟩
    | negInf =>
      exact ⟨fun _ => Or.inr rfl, fun _ => ⟨"Timestamp must be a finite number",
        by simp only [allowRequest, hkey, Bool.false_eq_true, if_false]⟩⟩

/-- C6: `cleanupInactiveBuckets` keeps a key iff it was touched within the
idle window (`lastUpdate ≥ currentTime - maxIdleTime`) or its level
recomputed as of `currentTime` by the drainage formula is still positive;
every retained bucket is rewritten to the recomputed level with
`lastUpdate = max(storedLastUpdate, currentTime)`, and every other key is
dropped. -/
theorem cleanup_spec (l : RateLimiter) (c m : ℚ) (h : KeysNodup l.buckets)
    (key : String) :
    lookupBucket (cleanupInactiveBuckets l c m).buckets key =
      match lookupBucket l.buckets key with
      | none => none
      | some b =>
        if b.lastUpdateTime ≥ c - m ∨
            max 0 (b.currentLevel - max 0 (c - b.lastUpdateTime) * l.leakRate) > 0 then
          some ⟨max 0 (b.currentLevel - max 0 (c - b.lastUpdateTime) * l.leakRate),
            max b.lastUpdateTime c⟩
        else none := by
  simp only [cleanupInactiveBuckets]
  rw [lookupBucket_cleanup l.leakRate c m key h]
  rcases lookupBucket l.buckets key with _ | b
  · rfl
  · simp only [Option.some_bind, cleanupEntry, calculateLeakedLevel]
    split
    · rfl
    · rfl

/-- Witness for C6: a drained old bucket is dropped, concretely. -/
theorem cleanup_spec_witness :
    lookupBucket (cleanupInactiveBuckets ⟨5, 1, [("u", ⟨1, 0⟩)]⟩ 4000 3600).buckets "u" =
      match lookupBucket [("u", (⟨1, 0⟩ : UserBucket))] "u" with
      | none => none
      | some b =>
        if b.lastUpdateTime ≥ 4000 - 3600 ∨
            max 0 (b.currentLevel - max 0 (4000 - b.lastUpdateTime) * 1) > 0 then
          some ⟨max 0 (b.currentLevel - max 0 (4000 - b.lastUpdateTime) * 1),
            max b.lastUpdateTime 4000⟩
        else none :=
  cleanup_spec ⟨5, 1, [("u", ⟨1, 0⟩)]⟩ 4000 3600 (by simp [KeysNodup]) "u"

/-- C7: `getBucketState` is a total pure function (it never fails and never
returns a new limiter, so it cannot change one): an empty or
whitespace-only key or an unrecorded key yields `none`; for a recorded key
with an observation time it reports the level recomputed by the drainage
formula without the `+1` demand unit, alongside the stored `lastUpdate`
and the limiter's capacity and leak rate; with the observation time omitted
it reports the stored level verbatim. -/
theorem getState_spec (l : RateLimiter) (key : String) (ot : Option ℚ) :
    (jsTrim key = "" → getBucketState l key ot = none) ∧
    (lookupBucket l.buckets key = none → getBucketState l key ot = none) ∧
    (∀ b, lookupBucket l.buckets key = some b →
      getBucketState l key ot = if jsTrim key = "" then none else
        some ⟨key,
          (match ot with
           | some t => max 0 (b.currentLevel - max 0 (t - b.lastUpdateTime) * l.leakRate)
           | none => b.currentLevel),
          l.capacity, b.lastUpdateTime, l.leakRate⟩) := by
  refine ⟨fun hkey => ?_, fun hnone => ?_, fun b hb => ?_⟩
  · have : (key = "" || jsTrim key = "") = true := by simp [hkey]
    simp only [getBucketState, this, if_true]
  · by_cases hkey : (key = "" || jsTrim key = "") = true
    · simp only [getBucketState, hkey, if_true]
    · rw [Bool.not_eq_true] at hkey
      simp only [getBucketState, hkey, Bool.false_eq_true, if_false, hnone]
  · by_cases hkey : jsTrim key = ""
    · have hc : (key = "" || jsTrim key = "") = true := by simp [hkey]
      simp only [getBucketState, hc, if_true, if_pos hkey]
    · have hk0 : key ≠ "" := fun h => hkey (by rw [h]; rfl)
      have hc : (key = "" || jsTrim key = "") = false := by simp [hk0, hkey]
      simp only [getBucketState, hc, Bool.false_eq_true, if_false, hb, if_neg hkey]
      rcases ot with _ | t
      · rfl
      · simp [calculateLeakedLevel]

/-- Witness for C7 at a concrete recorded key with an observation time. -/
theorem getState_spec_witness :
    getBucketState ⟨5, 1, [("u", ⟨5, 0⟩)]⟩ "u" (some 3) =
      if jsTrim "u" = "" then none else
        some ⟨"u", max 0 ((5:ℚ) - max 0 ((3:ℚ) - 0) * 1), 5, 0, 1⟩ :=
  (getState_spec ⟨5, 1, [("u", ⟨5, 0⟩)]⟩ "u" (some 3)).2.2 ⟨5, 0⟩ rfl

/-- C9: an admission check on key `A` leaves the recorded bucket of every
other key `B` (including its absence) exactly as it was. -/
theorem key_independence (l : RateLimiter) (A B : String) (t : JSNum)
    (hne : B ≠ A) (admitted : Bool) (l' : RateLimiter)
    (h : allowRequest l A t = .ok (admitted, l')) :
    lookupBucket l'.buckets B = lookupBucket l.buckets B := by
  by_cases hc : (A = "" || jsTrim A = "") = true
  · simp only [allowRequest, hc, if_true] at h
    cases h
  · rw [Bool.not_eq_true] at hc
    cases t with
    | fin ts =>
      simp only [allowRequest, hc, Bool.false_eq_true, if_false] at h
      split at h <;>
        (cases h; exact lookupBucket_setBucket_ne l.buckets A B _ hne)
    | nan => simp only [allowRequest, hc, Bool.false_eq_true, if_false] at h; cases h
    | posInf => simp only [allowRequest, hc, Bool.false_eq_true, if_false] at h; cases h
    | negInf => simp only [allowRequest, hc, Bool.false_eq_true, if_false] at h; cases h

/-- Witness for C9: a request on key `u` does not disturb key `v`. -/
theorem key_independence_witness :
    lookupBucket (⟨5, 1, [("v", ⟨2, 7⟩), ("u", ⟨1, 0⟩)]⟩ : RateLimiter).buckets "v" =
      lookupBucket (⟨5, 1, [("v", ⟨2, 7⟩)]⟩ : RateLimiter).buckets "v" :=
  key_independence ⟨5, 1, [("v", ⟨2, 7⟩)]⟩ "u" "v" (.fin 0) (by decide) true
    ⟨5, 1, [("v", ⟨2, 7⟩), ("u", ⟨1, 0⟩)]⟩ (by
      have h1 : ("u" = "" || jsTrim "u" = "") = false := by decide
      have h2 : lookupBucket [("v", (⟨2, 7⟩ : UserBucket))] "u" = none := by decide
      have h3 : "v" ≠ "u" := by decide
      simp only [allowRequest, h1, Bool.false_eq_true, if_false, h2]
      norm_num [setBucket, h3])

/-- C10: every valid admission check records a bucket for its key, admitted
or not; in particular with `capacity < 1` the first-ever request on a fresh
key is rejected and yet inserts `{level 0, lastUpdate = timestamp}`. -/
theorem rejected_fresh_key_state (l : RateLimiter) (key : String) (ts : ℚ)
    (hkey : jsTrim key ≠ "") :
    (∀ admitted l', allowRequest l key (.fin ts) = .ok (admitted, l') →
      ∃ b, lookupBucket l'.buckets key = some b) ∧
    (l.capacity < 1 → lookupBucket l.buckets key = none →
      allowRequest l key (.fin ts) =
        .ok (false, ⟨l.capacity, l.leakRate, setBucket l.buckets key ⟨0, ts⟩⟩) ∧
      lookupBucket (setBucket l.buckets key ⟨0, ts⟩) key = some ⟨0, ts⟩) := by
  have hk0 : key ≠ "" := fun h => hkey (by rw [h]; rfl)
  have hcond : (key = "" || jsTrim key = "") = false := by simp [hk0, hkey]
  constructor
  · intro admitted l' h
    simp only [allowRequest, hcond, Bool.false_eq_true, if_false] at h
    split at h <;>
      (cases h; exact ⟨_, lookupBucket_setBucket_self l.buckets key _⟩)
  · intro hcap hlook
    refine ⟨?_, lookupBucket_setBucket_self l.buckets key _⟩
    simp only [allowRequest, hcond, Bool.false_eq_true, if_false, hlook]
    rw [if_pos (by simpa using hcap)]

theorem allowRequest_ok_cases {l : RateLimiter} {key : String} {t : JSNum}
    {a : Bool} {l' : RateLimiter} (h : allowRequest l key t = .ok (a, l')) :
    l'.capacity = l.capacity ∧ l'.leakRate = l.leakRate ∧
    ∃ ts, t = .fin ts ∧
      ∃ cb : UserBucket,
        cb = (match lookupBucket l.buckets key with
              | none => (⟨0, ts⟩ : UserBucket)
              | some b => updateBucket b ts l.leakRate) ∧
        ((a = false ∧ cb.currentLevel + 1 > l.capacity ∧
          l'.buckets = setBucket l.buckets key cb) ∨
         (a = true ∧ cb.currentLevel + 1 ≤ l.capacity ∧
          l'.buckets = setBucket l.buckets key ⟨cb.currentLevel + 1, cb.lastUpdateTime⟩)) := by
  by_cases hcond : (key = "" || jsTrim key = "") = true
  · simp only [allowRequest, hcond, if_true] at h
    cases h
  · rw [Bool.not_eq_true] at hcond
    cases t with
    | fin ts =>
      simp only [allowRequest, hcond, Bool.false_eq_true, if_false] at h
      split at h
      next hgt =>
        cases h
        exact ⟨rfl, rfl, ts, rfl, _, rfl, Or.inl ⟨rfl, hgt, rfl⟩⟩
      next hgt =>
        cases h
        exact ⟨rfl, rfl, ts, rfl, _, rfl, Or.inr ⟨rfl, not_lt.1 hgt, rfl⟩⟩
    | nan => simp only [allowRequest, hcond, Bool.false_eq_true, if_false] at h; cases h
    | posInf => simp only [allowRequest, hcond, Bool.false_eq_true, if_false] at h; cases h
    | negInf => simp only [allowRequest, hcond, Bool.false_eq_true, if_false] at h; cases h

theorem keysNodup_applyOp (l : RateLimiter) (op : Op) (h : KeysNodup l.buckets) :
    KeysNodup (applyOp l op).buckets := by
  cases op with
  | req key t =>
    rcases hh : allowRequest l key t with e | ⟨a, l'⟩
    · simp only [applyOp, hh]
      exact h
    · simp only [applyOp, hh]
      obtain ⟨-, -, ts, -, cb, -, hcase⟩ := allowRequest_ok_cases hh
      rcases hcase with ⟨-, -, hbk⟩ | ⟨-, -, hbk⟩ <;>
        (rw [hbk]; exact keys_setBucket_nodup _ _ h)
  | cleanup c m =>
    simp only [applyOp, cleanupInactiveBuckets]
    exact keys_cleanup_nodup _ _ _ h

theorem calculateLeakedLevel_bounds {b : UserBucket} {q r cap : ℚ} (hr : 0 ≤ r)
    (h0 : 0 ≤ b.currentLevel) (h1 : b.currentLevel ≤ cap) :
    0 ≤ calculateLeakedLevel b q r ∧ calculateLeakedLevel b q r ≤ cap := by
  refine ⟨le_max_left _ _, max_le (le_trans h0 h1) ?_⟩
  have : 0 ≤ max 0 (q - b.lastUpdateTime) * r := mul_nonneg (le_max_left _ _) hr
  linarith

theorem bucketInv_applyOp {l : RateLimiter} (op : Op) (h : BucketInv l) :
    BucketInv (applyOp l op) := by
  obtain ⟨hcap, hrate, hinv⟩ := h
  cases op with
  | req key t =>
    rcases hh : allowRequest l key t with e | ⟨a, l'⟩
    · simp only [applyOp, hh]
      exact ⟨hcap, hrate, hinv⟩
    · simp only [applyOp, hh]
      obtain ⟨hc, hr, ts, -, cb, hcb, hcase⟩ := allowRequest_ok_cases hh
      have hcb_bounds : 0 ≤ cb.currentLevel ∧ cb.currentLevel ≤ l.capacity := by
        rcases hlook : lookupBucket l.buckets key with _ | b
        · rw [hlook] at hcb
          simp only [hcb]
          exact ⟨le_refl 0, le_of_lt hcap⟩
        · rw [hlook] at hcb
          obtain ⟨hb0, hb1⟩ := hinv _ (lookupBucket_eq_some_mem hlook)
          rw [hcb]
          exact calculateLeakedLevel_bounds (le_of_lt hrate) hb0 hb1
      refine ⟨hc ▸ hcap, hr ▸ hrate, ?_⟩
      intro e he
      rw [hc]
      rcases hcase with ⟨-, -, hbk⟩ | ⟨ha, hle, hbk⟩
      · rw [hbk] at he
        rcases mem_setBucket he with h1 | h1
        · rw [h1]
          exact hcb_bounds
        · exact hinv _ h1
      · rw [hbk] at he
        rcases mem_setBucket he with h1 | h1
        · rw [h1]
          refine ⟨?_, ?_⟩
          · show (0:ℚ) ≤ cb.currentLevel + 1
            linarith [hcb_bounds.1]
          · show cb.currentLevel + 1 ≤ l.capacity
            exact hle
        · exact hinv _ h1
  | cleanup c m =>
    refine ⟨hcap, hrate, ?_⟩
    intro e he
    simp only [applyOp, cleanupInactiveBuckets] at he ⊢
    rcases List.mem_filterMap.1 he with ⟨e₀, he₀, hce⟩
    obtain ⟨h0, h1⟩ := hinv _ he₀
    rw [cleanupEntry_val hce]
    exact calculateLeakedLevel_bounds (le_of_lt hrate) h0 h1

theorem reachable_bucketInv {l : RateLimiter} (h : Reachable l) : BucketInv l := by
  induction h with
  | created c r hc hr =>
    exact ⟨hc, hr, by intro e he; cases he⟩
  | step l op hre ih =>
    exact bucketInv_applyOp op ih

/-- C4: in every state reachable from a fresh limiter by any sequence of
admission checks and cleanups, every stored level satisfies
`0 ≤ level ≤ capacity` — and hence also the claimed `level < capacity + 1`
after a rejected call; the tentative `+1` never persists on rejection. -/
theorem level_bounds (l : RateLimiter) (key : String) (b : UserBucket)
    (hre : Reachable l) (hb : lookupBucket l.buckets key = some b) :
    0 ≤ b.currentLevel ∧ b.currentLevel ≤ l.capacity ∧
      b.currentLevel < l.capacity + 1 := by
  obtain ⟨hcap, hrate, hinv⟩ := reachable_bucketInv hre
  obtain ⟨h0, h1⟩ := hinv _ (lookupBucket_eq_some_mem hb)
  exact ⟨h0, h1, by linarith⟩

/-- Witness for C4: the state after one admitted request on a fresh
limiter; the stored level 1 lies within `[0, 5]`. -/
theorem level_bounds_witness :
    0 ≤ (UserBucket.mk 1 0).currentLevel ∧
    (UserBucket.mk 1 0).currentLevel ≤ (applyOp ⟨5, 1, []⟩ (.req "u" (.fin 0))).capacity ∧
    (UserBucket.mk 1 0).currentLevel <
      (applyOp ⟨5, 1, []⟩ (.req "u" (.fin 0))).capacity + 1 :=
  level_bounds (applyOp ⟨5, 1, []⟩ (.req "u" (.fin 0))) "u" ⟨1, 0⟩
    (Reachable.step _ _ (Reachable.created 5 1 (by norm_num) (by norm_num)))
    (by
      simp only [applyOp, allowRequest_eval_fresh]
      rfl)

theorem lastUpdate_mono_step (l : RateLimiter) (op : Op) (k : String)
    (b b' : UserBucket) (hn : KeysNodup l.buckets)
    (hb : lookupBucket l.buckets k = some b)
    (hb' : lookupBucket (applyOp l op).buckets k = some b') :
    b.lastUpdateTime ≤ b'.lastUpdateTime := by
  cases op with
  | req key t =>
    rcases hh : allowRequest l key t with e | ⟨a, l'⟩
    · simp only [applyOp, hh] at hb'
      rw [hb] at hb'
      cases hb'
      exact le_refl _
    · simp only [applyOp, hh] at hb'
      obtain ⟨-, -, ts, -, cb, hcb, hcase⟩ := allowRequest_ok_cases hh
      by_cases hkk : k = key
      · subst hkk
        rcases hcase with ⟨-, -, hbk⟩ | ⟨-, -, hbk⟩
        · rw [hbk, lookupBucket_setBucket_self] at hb'
          cases hb'
          simp only [hcb, hb, updateBucket]
          exact le_max_left _ _
        · rw [hbk, lookupBucket_setBucket_self] at hb'
          cases hb'
          simp only [hcb, hb, updateBucket]
          exact le_max_left _ _
      · rcases hcase with ⟨-, -, hbk⟩ | ⟨-, -, hbk⟩ <;>
          (rw [hbk, lookupBucket_setBucket_ne _ _ _ _ hkk, hb] at hb';
           cases hb';
           exact le_refl _)
  | cleanup c m =>
    simp only [applyOp, cleanupInactiveBuckets] at hb'
    rw [lookupBucket_cleanup _ _ _ _ hn, hb] at hb'
    simp only [Option.some_bind] at hb'
    rcases hce : cleanupEntry l.leakRate c m (k, b) with _ | e'
    · rw [hce] at hb'
      simp at hb'
    · rw [hce] at hb'
      simp only [Option.map_some'] at hb'
      cases hb'
      simp only [cleanupEntry_val hce]
      exact le_max_left _ _

/-- C5 counterexample: start from `create(5, 1)`; an admitted request at
t=100 stores `lastUpdate = 100`; a cleanup at `currentTime = 4000`
(`maxIdleTime = 3600`) drops the fully drained idle bucket; a later request
at t=5 re-creates it with `lastUpdate = 5 < 100` — the stored clock of key
`u` moved backwards across the sequence. -/
theorem lastUpdate_backwards_example :
    lookupBucket (applyOps ⟨5, 1, []⟩ [.req "u" (.fin 100)]).buckets "u" =
      some ⟨1, 100⟩ ∧
    lookupBucket (applyOps ⟨5, 1, []⟩
      [.req "u" (.fin 100), .cleanup 4000 3600, .req "u" (.fin 5)]).buckets "u" =
      some ⟨1, 5⟩ ∧
    ¬((100 : ℚ) ≤ (5 : ℚ)) := by
  have h1 : allowRequest ⟨5, 1, []⟩ "u" (.fin 100) =
      .ok (true, ⟨5, 1, [("u", ⟨1, 100⟩)]⟩) := by
    simp only [allowRequest, uKeyValid, Bool.false_eq_true, if_false, lookupBucket_nil]
    norm_num [setBucket]
  have h2 : cleanupInactiveBuckets ⟨5, 1, [("u", ⟨1, 100⟩)]⟩ 4000 3600 = ⟨5, 1, []⟩ := by
    simp only [cleanupInactiveBuckets, List.filterMap, cleanupEntry, calculateLeakedLevel]
    norm_num
  have h3 : allowRequest ⟨5, 1, []⟩ "u" (.fin 5) =
      .ok (true, ⟨5, 1, [("u", ⟨1, 5⟩)]⟩) := by
    simp only [allowRequest, uKeyValid, Bool.false_eq_true, if_false, lookupBucket_nil]
    norm_num [setBucket]
  refine ⟨?_, ?_, by norm_num⟩
  · simp only [applyOps, List.foldl, applyOp, h1]
    rfl
  · simp only [applyOps, List.foldl, applyOp, h1, h2, h3]
    rfl

/-- C5 amended: the stored `lastUpdate` of a key is non-decreasing across
any sequence of admission checks and cleanups during which the key's bucket
stays present — no operation ever moves a surviving bucket's clock
backwards, whatever the order of input timestamps. (If a cleanup drops the
fully drained idle bucket, a later call re-creates it with that call's own
timestamp, which may be smaller; see the counterexample.) -/
theorem lastUpdate_monotone (ops : List Op) :
    ∀ (l : RateLimiter) (k : String) (b b' : UserBucket),
      KeysNodup l.buckets →
      (∀ pre suf, ops = pre ++ suf →
        (lookupBucket (applyOps l pre).buckets k).isSome = true) →
      lookupBucket l.buckets k = some b →
      lookupBucket (applyOps l ops).buckets k = some b' →
      b.lastUpdateTime ≤ b'.lastUpdateTime := by
  induction ops with
  | nil =>
    intro l k b b' hn hpres hb hb'
    rw [show applyOps l [] = l from rfl, hb] at hb'
    cases hb'
    exact le_refl _
  | cons op rest ih =>
    intro l k b b' hn hpres hb hb'
    have h1 : (lookupBucket (applyOp l op).buckets k).isSome = true := by
      have := hpres [op] rest rfl
      rwa [show applyOps l [op] = applyOp l op from rfl] at this
    obtain ⟨b₁, hb₁⟩ := Option.isSome_iff_exists.1 h1
    have hstep := lastUpdate_mono_step l op k b b₁ hn hb hb₁
    have hn₁ := keysNodup_applyOp l op hn
    have hb'' : lookupBucket (applyOps (applyOp l op) rest).buckets k = some b' := by
      rwa [show applyOps l (op :: rest) = applyOps (applyOp l op) rest from rfl] at hb'
    have hpres₁ : ∀ pre suf, rest = pre ++ suf →
        (lookupBucket (applyOps (applyOp l op) pre).buckets k).isSome = true := by
      intro pre suf hps
      have := hpres (op :: pre) suf (by rw [hps]; rfl)
      rwa [show applyOps l (op :: pre) = applyOps (applyOp l op) pre from rfl] at this
    exact le_trans hstep (ih (applyOp l op) k b₁ b' hn₁ hpres₁ hb₁ hb'')

/-- Witness for C5 (amended): one cleanup pass on a present bucket advances
its clock from 0 to 2, never backwards. -/
theorem lastUpdate_monotone_witness :
    (UserBucket.mk 1 0).lastUpdateTime ≤ (UserBucket.mk 0 2).lastUpdateTime :=
  lastUpdate_monotone [.cleanup 2 3600] ⟨5, 1, [("u", ⟨1, 0⟩)]⟩ "u" ⟨1, 0⟩ ⟨0, 2⟩
    (by simp [KeysNodup])
    (by
      intro pre suf hps
      cases pre with
      | nil => rfl
      | cons x xs =>
        simp only [List.cons_append, List.cons.injEq] at hps
        obtain ⟨hx, hrest⟩ := hps
        obtain ⟨hxs, -⟩ := List.append_eq_nil.1 hrest.symm
        subst hx
        subst hxs
        have hcl : applyOps (⟨5, 1, [("u", ⟨1, 0⟩)]⟩ : RateLimiter)
            [Op.cleanup 2 3600] = ⟨5, 1, [("u", ⟨0, 2⟩)]⟩ := by
          simp only [applyOps, List.foldl, applyOp, cleanupInactiveBuckets,
            List.filterMap, cleanupEntry, calculateLeakedLevel]
          norm_num
        rw [hcl]
        rfl)
    rfl
    (by
      have hcl : applyOps (⟨5, 1, [("u", ⟨1, 0⟩)]⟩ : RateLimiter)
          [Op.cleanup 2 3600] = ⟨5, 1, [("u", ⟨0, 2⟩)]⟩ := by
        simp only [applyOps, List.foldl, applyOp, cleanupInactiveBuckets,
          List.filterMap, cleanupEntry, calculateLeakedLevel]
        norm_num
      rw [hcl]
      rfl)

theorem allowRequest_fst (l : RateLimiter) (key : String) (q : ℚ)
    (hcond : (key = "" || jsTrim key = "") = false) :
    (allowRequest l key (.fin q)).toOption.map Prod.fst =
      some (decide (specReconciledLevel l key q + 1 ≤ l.capacity)) := by
  have hcb := code_bucket_eq l key q
  by_cases hadm : specReconciledLevel l key q + 1 > l.capacity
  · simp only [allowRequest, hcond, Bool.false_eq_true, if_false, hcb]
    rw [if_pos hadm, decide_eq_false (not_le.2 hadm)]
    rfl
  · simp only [allowRequest, hcond, Bool.false_eq_true, if_false, hcb]
    rw [if_neg hadm, decide_eq_true (not_lt.1 hadm)]
    rfl

theorem spec_level_cleanup (l : RateLimiter) (c m : ℚ) (key : String) (q : ℚ)
    (hr : 0 ≤ l.leakRate) (hn : KeysNodup l.buckets) (hq : c ≤ q) :
    specReconciledLevel (cleanupInactiveBuckets l c m) key q =
      specReconciledLevel l key q := by
  have hlc : lookupBucket (cleanupInactiveBuckets l c m).buckets key =
      (lookupBucket l.buckets key).bind
        (fun b => (cleanupEntry l.leakRate c m (key, b)).map Prod.snd) := by
    simp only [cleanupInactiveBuckets]
    exact lookupBucket_cleanup l.leakRate c m key hn
  rcases hb : lookupBucket l.buckets key with _ | b
  · rw [hb] at hlc
    simp only [Option.none_bind] at hlc
    simp only [specReconciledLevel, specPrior, hlc, hb]
    rfl
  · rw [hb] at hlc
    simp only [Option.some_bind] at hlc
    by_cases hkeep : b.lastUpdateTime ≥ c - m ∨ calculateLeakedLevel b c l.leakRate > 0
    · have hce : cleanupEntry l.leakRate c m (key, b) =
          some (key, ⟨calculateLeakedLevel b c l.leakRate, max b.lastUpdateTime c⟩) := by
        simp only [cleanupEntry]
        rw [if_pos hkeep]
      rw [hce] at hlc
      simp only [Option.map_some'] at hlc
      simp only [specReconciledLevel, specPrior, hlc, hb, Option.getD_some]
      exact leaked_compose hr hq
    · have hce : cleanupEntry l.leakRate c m (key, b) = none := by
        simp only [cleanupEntry]
        rw [if_neg hkeep]
      rw [hce] at hlc
      simp only [Option.map_none'] at hlc
      push_neg at hkeep
      have hlvl : calculateLeakedLevel b c l.leakRate = 0 :=
        le_antisymm hkeep.2 (le_max_left _ _)
      have hrhs := (leaked_compose (L := b.currentLevel) (t := b.lastUpdateTime)
        hr hq).symm
      rw [calculateLeakedLevel] at hlvl
      rw [hlvl] at hrhs
      have hz : max 0 ((0:ℚ) - max 0 (q - max b.lastUpdateTime c) * l.leakRate) = 0 := by
        have : 0 ≤ max 0 (q - max b.lastUpdateTime c) * l.leakRate :=
          mul_nonneg (le_max_left _ _) hr
        apply max_eq_left
        linarith
      simp only [specReconciledLevel, specPrior, hlc, hb, Option.getD_some, Option.getD_none]
      rw [hrhs, hz]
      simp

/-- C2 counterexample: a cleanup pass run with a `currentTime` later than a
subsequent request's timestamp drains the bucket against that future clock,
flipping the admission decision. With capacity 5, leak rate 1 and a bucket
`{level 5, lastUpdate 0}`, a request at t=0 is rejected, but after
`cleanup(currentTime=3, maxIdleTime=3600)` the same request is admitted. -/
theorem cleanup_changes_admission :
    (allowRequest (cleanupInactiveBuckets ⟨5, 1, [("u", ⟨5, 0⟩)]⟩ 3 3600) "u"
        (.fin 0)).toOption.map Prod.fst = some true ∧
    (allowRequest (⟨5, 1, [("u", ⟨5, 0⟩)]⟩ : RateLimiter) "u"
        (.fin 0)).toOption.map Prod.fst = some false := by
  constructor
  · have hc : cleanupInactiveBuckets ⟨5, 1, [("u", ⟨5, 0⟩)]⟩ 3 3600 =
        ⟨5, 1, [("u", ⟨2, 3⟩)]⟩ := by
      simp only [cleanupInactiveBuckets, List.filterMap, cleanupEntry, calculateLeakedLevel]
      norm_num
    rw [hc]
    have h2 : lookupBucket [("u", (⟨2, 3⟩ : UserBucket))] "u" = some ⟨2, 3⟩ := rfl
    simp only [allowRequest, uKeyValid, Bool.false_eq_true, if_false, h2, updateBucket,
      calculateLeakedLevel]
    try norm_num [Except.toOption]
  · have h2 : lookupBucket [("u", (⟨5, 0⟩ : UserBucket))] "u" = some ⟨5, 0⟩ := rfl
    simp only [allowRequest, uKeyValid, Bool.false_eq_true, if_false, h2, updateBucket,
      calculateLeakedLevel]
    try norm_num [Except.toOption]

/-- C2 amended: cleanup does not change any admission decision made at or
after the cleanup's observation time: for every limiter with distinct bucket
keys and non-negative leak rate, every cleanup `(currentTime, maxIdleTime)`
and every subsequent valid call whose timestamp is `≥ currentTime`, the
admission boolean after the cleanup equals the one without it. (For a
timestamp before `currentTime` the decisions can differ, see the
counterexample.) -/
theorem cleanup_preserves_admission (l : RateLimiter) (c m : ℚ) (key : String) (q : ℚ)
    (hr : 0 ≤ l.leakRate) (hn : KeysNodup l.buckets) (hq : c ≤ q) :
    (allowRequest (cleanupInactiveBuckets l c m) key (.fin q)).toOption.map Prod.fst =
      (allowRequest l key (.fin q)).toOption.map Prod.fst := by
  by_cases hcond : (key = "" || jsTrim key = "") = true
  · simp only [allowRequest, hcond, if_true]
  · rw [Bool.not_eq_true] at hcond
    rw [allowRequest_fst _ _ _ hcond, allowRequest_fst _ _ _ hcond,
      spec_level_cleanup l c m key q hr hn hq]
    rfl

/-- Witness for C2 (amended) at a concrete input: the bucket from the
counterexample, but with the subsequent request at t=10 ≥ currentTime=3;
both orders agree. -/
theorem cleanup_preserves_admission_witness :
    (allowRequest (cleanupInactiveBuckets ⟨5, 1, [("u", ⟨5, 0⟩)]⟩ 3 3600) "u"
        (.fin 10)).toOption.map Prod.fst =
      (allowRequest (⟨5, 1, [("u", ⟨5, 0⟩)]⟩ : RateLimiter) "u"
        (.fin 10)).toOption.map Prod.fst :=
  cleanup_preserves_admission ⟨5, 1, [("u", ⟨5, 0⟩)]⟩ 3 3600 "u" 10
    (by norm_num) (by simp [KeysNodup]) (by norm_num)

/-- Witness for C10: capacity 1/2, fresh key, request rejected but the
bucket is inserted. -/
theorem rejected_fresh_key_state_witness :
    allowRequest ⟨1/2, 1, []⟩ "u" (.fin 7) =
      .ok (false, ⟨1/2, 1, setBucket [] "u" ⟨0, 7⟩⟩) ∧
    lookupBucket (setBucket [] "u" ⟨0, 7⟩) "u" = some ⟨0, 7⟩ :=
  (rejected_fresh_key_state ⟨1/2, 1, []⟩ "u" 7 (by decide)).2 (by norm_num) rfl

